import Mathlib

/-!
Verification of the morpheme encoding/decoding and scoring engine of
`scripts/rules/morph_model.py`.

The Python data model and the framework-independent functions
(`MorphemeLabel`, `Morpheme`, `Word`, `parse_morpheme`, `parse_word`,
`measure_quality`, `MorphemModel._transform_classification`) are embedded
shallowly below.  Python strings are modelled as `String` or `List Char`
(one entry per character, matching Python's `len` and slicing), Python
floats produced by `measure_quality` as `ℚ` (every division in scope is
exact), raised exceptions as explicit error values, and `parse_word`'s
`None` return as a dedicated `rejected` constructor.
-/

set_option maxHeartbeats 1000000

/-- The `MorphemeLabel` enumeration of morph_model.py.  The Python member
`POSTFIX` is spelled `POSTFX` here (its string value below keeps the original
spelling); `NONE` is the member whose Python value is `None`. -/
inductive MorphemeLabel where
  | UNKN
  | PREF
  | ROOT
  | SUFF
  | END
  | LINK
  | HYPH
  | POSTFX
  | NONE
deriving DecidableEq

/-- Python `label.value`.  For every member except `NONE` this is the
distinct tag name string.  `NONE.value` is Python `None`: the code paths
below that use the value as a string would raise `TypeError` on it, and every
theorem below assumes labels are not `NONE`; the empty string stands in for
`None` so the embedding stays total. -/
def MorphemeLabel.value : MorphemeLabel → String
  | .UNKN => "UNKN"
  | .PREF => "PREF"
  | .ROOT => "ROOT"
  | .SUFF => "SUFF"
  | .END => "END"
  | .LINK => "LINK"
  | .HYPH => "HYPH"
  | .POSTFX => "POSTFIX"
  | .NONE => ""

/-- Python `MorphemeLabel[name]` member lookup by name; an unknown name
raises `KeyError`, modelled as `none`. -/
def labelFromName : String → Option MorphemeLabel
  | "UNKN" => some .UNKN
  | "PREF" => some .PREF
  | "ROOT" => some .ROOT
  | "SUFF" => some .SUFF
  | "END" => some .END
  | "LINK" => some .LINK
  | "HYPH" => some .HYPH
  | "POSTFIX" => some .POSTFX
  | "NONE" => some .NONE
  | _ => none

/-- A morpheme span (`Morpheme.__init__`): the constructor stores
`part_text`, `label` and `begin_pos`. -/
structure Morpheme where
  part_text : List Char
  label : MorphemeLabel
  begin_pos : Nat
deriving DecidableEq

/-- Derived attribute `self.length = len(part_text)`. -/
def Morpheme.length (m : Morpheme) : Nat := m.part_text.length

/-- Derived attribute `self.end_pos = self.begin_pos + self.length`. -/
def Morpheme.end_pos (m : Morpheme) : Nat := m.begin_pos + m.length

/-- The guard of `Morpheme.get_simple_labels`: the label is compared with
`SUFF`, `PREF` and `ROOT`. -/
def bCoded (l : MorphemeLabel) : Prop := l = .SUFF ∨ l = .PREF ∨ l = .ROOT

instance : DecidablePred bCoded := fun l =>
  inferInstanceAs (Decidable (l = .SUFF ∨ l = .PREF ∨ l = .ROOT))

/-- Python `Morpheme.get_labels`: a single `S-` tag for a one-letter
morpheme, otherwise `B-`, one `M-` per interior letter (`part_text[1:-1]`),
and a final `E-` tag. -/
def Morpheme.get_labels (m : Morpheme) : List String :=
  if m.length = 1 then ["S-" ++ m.label.value]
  else ["B-" ++ m.label.value]
       ++ ((m.part_text.drop 1).dropLast.map (fun _ => "M-" ++ m.label.value))
       ++ ["E-" ++ m.label.value]

/-- Python `Morpheme.get_simple_labels`: for `SUFF`/`PREF`/`ROOT` a `B-`
tag followed by one bare tag per remaining letter (`part_text[1:]`, appended
only when `length > 1`); for every other kind `[value] * length`. -/
def Morpheme.get_simple_labels (m : Morpheme) : List String :=
  if bCoded m.label then
    if m.length > 1 then
      ["B-" ++ m.label.value] ++ (m.part_text.drop 1).map (fun _ => m.label.value)
    else ["B-" ++ m.label.value]
  else
    List.replicate m.length m.label.value

/-- A `Word`: an ordered list of morphemes plus a part-of-speech tag. -/
structure Word where
  morphemes : List Morpheme
  sp : String
deriving DecidableEq

/-- Python `Word.get_labels`: concatenation of every morpheme's full labels. -/
def Word.get_labels (w : Word) : List String :=
  (w.morphemes.map Morpheme.get_labels).flatten

/-- Python `Word.get_simple_labels`: concatenation of every morpheme's
simple labels. -/
def Word.get_simple_labels (w : Word) : List String :=
  (w.morphemes.map Morpheme.get_simple_labels).flatten

/-- Python `Word.__len__`: the sum of the morpheme lengths. -/
def Word.len (w : Word) : Nat := (w.morphemes.map Morpheme.length).sum

/-- Python single-character `str.split(sep)` over a character list: always at
least one (possibly empty) field, one extra field per separator occurrence. -/
def splitOnChar (sep : Char) : List Char → List (List Char)
  | [] => [[]]
  | c :: rest =>
    let r := splitOnChar sep rest
    if c == sep then [] :: r
    else
      match r with
      | [] => [[c]]
      | g :: gs => (c :: g) :: gs

/-- Does `s` start with `pat`?  Helper for the Python substring and
`str.startswith` tests. -/
def startsWithL : List Char → List Char → Bool
  | _, [] => true
  | [], _ :: _ => false
  | c :: s, p :: ps => c == p && startsWithL s ps

/-- Python substring containment `pat in s`. -/
def hasSub : List Char → List Char → Bool
  | [], pat => pat.isEmpty
  | c :: rest, pat => startsWithL (c :: rest) pat || hasSub rest pat

/-- Python `str.startswith` on `String`s. -/
def strStarts (s pat : String) : Bool := startsWithL s.toList pat.toList

/-- The exceptions `parse_word`/`parse_morpheme` can raise:
`unknownClass` is the explicit `raise Exception("Unknown class", ...)`,
`valueError` the `ValueError` of a failed tuple unpacking of `str.split`,
`keyError` the `KeyError` of an unknown `MorphemeLabel` name. -/
inductive ParseErr where
  | unknownClass
  | valueError
  | keyError
deriving DecidableEq

/-- Result of `parse_word`: a parsed `Word`, the `None` return used for
ambiguous wordforms (the spec's AmbiguousWordform reject), or a raised
exception. -/
inductive ParseResult where
  | ok (w : Word)
  | rejected
  | failed (e : ParseErr)
deriving DecidableEq

/-- Python `parse_morpheme`: `text, label = str_repr.split(':')` (exactly two
pieces or `ValueError`), then the `MorphemeLabel[label]` lookup. -/
def parse_morpheme (str_repr : List Char) (position : Nat) : Except ParseErr Morpheme :=
  match splitOnChar ':' str_repr with
  | [text, label] =>
    match labelFromName (String.mk label) with
    | some l => .ok ⟨text, l, position⟩
    | none => .error .keyError
  | _ => .error .valueError

/-- The morpheme loop of `parse_word`: each part is parsed at the running
`global_index`, which then advances by `len(part)` — the length of the whole
`text:KIND` token, exactly as in the source. -/
def parse_morphemes : List (List Char) → Nat → Except ParseErr (List Morpheme)
  | [], _ => .ok []
  | part :: rest, global_index =>
    match parse_morpheme part global_index with
    | .ok m =>
      match parse_morphemes rest (global_index + part.length) with
      | .ok ms => .ok (m :: ms)
      | .error e => .error e
    | .error e => .error e

/-- The part-of-speech resolution of `parse_word`'s four-field branch: the
ordered substring tests of `class_info`, `none` when no test matches (the
`raise Exception("Unknown class", ...)` case). -/
def classOf (class_info : List Char) : Option String :=
  if hasSub class_info "ADJ".toList then some "ADJ"
  else if hasSub class_info "VERB".toList then some "VERB"
  else if hasSub class_info "NOUN".toList then some "NOUN"
  else if hasSub class_info "GRND".toList then some "GRND"
  else if hasSub class_info "ADV".toList then some "ADV"
  else if hasSub class_info "PART".toList then some "PART"
  else none

/-- The tail of `parse_word` common to all field counts: the ambiguity guard
on the wordform (`return None`), then the morpheme loop over
`word_parts.split('/')` starting at offset 0. -/
def parseRest (wordform word_parts : List Char) (sp : String) : ParseResult :=
  if wordform.contains ':' || wordform.contains '/' then .rejected
  else
    match parse_morphemes (splitOnChar '/' word_parts) 0 with
    | .ok ms => .ok ⟨ms, sp⟩
    | .error e => .failed e

/-- Python `parse_word`: branch on the tab count (4, 3 or 2 fields; any other
count makes the final two-variable unpacking raise `ValueError`), resolve the
part of speech, then `parseRest`. -/
def parse_word (str_repr : String) : ParseResult :=
  match splitOnChar '\t' str_repr.toList with
  | [wordform, word_parts, _, class_info] =>
    match classOf class_info with
    | some sp => parseRest wordform word_parts sp
    | none => .failed .unknownClass
  | [wordform, word_parts, sp] => parseRest wordform word_parts (String.mk sp)
  | [wordform, word_parts] => parseRest wordform word_parts "X"
  | _ => .failed .valueError

/-- The scorer's boundary label list `SE`, built in `measure_quality` as the
format products of `"SE"` with the six kind names (note the spelling `None`). -/
def SE_list : List String :=
  (["S", "E"].flatMap fun x =>
    (["ROOT", "PREF", "SUFF", "END", "LINK", "None"].map fun y => x ++ "-" ++ y))

/-- The boundary positions of one label sequence:
`[i for i in range(len(seq)) if seq[i] in SE]`. -/
def boundariesOf (labels : List String) : List Nat :=
  (List.range labels.length).filter (fun i => SE_list.contains (labels.getD i ""))

/-- The per-dataset accumulators of `measure_quality`. -/
structure Counts where
  TP : Nat
  FP : Nat
  FN : Nat
  equal : Nat
  total : Nat
  corr_words : Nat
deriving DecidableEq

/-- Componentwise sum of two accumulator states. -/
def Counts.add (a b : Counts) : Counts :=
  ⟨a.TP + b.TP, a.FP + b.FP, a.FN + b.FN, a.equal + b.equal,
   a.total + b.total, a.corr_words + b.corr_words⟩

/-- The body of `measure_quality`'s loop for one `(corr, pred)` pair:
boundary extraction, their intersection `common`, and the six updates. -/
def scoreWord (c : Counts) (cp : List String × List String) : Counts :=
  let boundaries := boundariesOf cp.1
  let pred_boundaries := boundariesOf cp.2
  let common := boundaries.filter (fun x => pred_boundaries.contains x)
  { TP := c.TP + common.length
    FP := c.FP + (pred_boundaries.length - common.length)
    FN := c.FN + (boundaries.length - common.length)
    equal := c.equal + (cp.1.zip cp.2).countP (fun xy => xy.1 == xy.2)
    total := c.total + cp.1.length
    corr_words := c.corr_words + (if cp.1 = cp.2 then 1 else 0) }

/-- Folding `measure_quality`'s loop from the zero accumulators. -/
def countsOf (pairs : List (List String × List String)) : Counts :=
  pairs.foldl scoreWord ⟨0, 0, 0, 0, 0, 0⟩

/-- The `(corr, pred)` pairs `measure_quality` iterates over:
`zip(targets, predicted_targets, words)` truncates to the shortest of the
three lists (the word component is used only for diagnostics). -/
def scorePairs (predicted_targets targets : List (List String)) (words : List Word) :
    List (List String × List String) :=
  ((targets.zip predicted_targets).zip words).map Prod.fst

/-- The error `measure_quality` can raise: Python's `ZeroDivisionError` from
a zero metric denominator (the spec's UndefinedMetric). -/
inductive ScoreErr where
  | undefinedMetric
deriving DecidableEq

deriving instance DecidableEq for Except

/-- Python `measure_quality`: accumulate the counters over the zipped
dataset, then produce the five named ratios.  Python computes the ratios
with exact integer numerators and denominators and raises
`ZeroDivisionError` as soon as any denominator is zero; the values are
modelled in `ℚ` and the raise as `ScoreErr.undefinedMetric`. -/
def measure_quality (predicted_targets targets : List (List String)) (words : List Word) :
    Except ScoreErr (List (String × ℚ)) :=
  let c := countsOf (scorePairs predicted_targets targets words)
  let tp : ℚ := c.TP
  let fp : ℚ := c.FP
  let fn : ℚ := c.FN
  let eq : ℚ := c.equal
  let tot : ℚ := c.total
  let n : ℚ := targets.length
  if tp + fp = 0 ∨ tp + fn = 0 ∨ tp + (1 / 2) * (fp + fn) = 0 ∨ tot = 0 ∨ n = 0 then
    .error .undefinedMetric
  else
    .ok [("Precision", tp / (tp + fp)),
         ("Recall", tp / (tp + fn)),
         ("F1", tp / (tp + (1 / 2) * (fp + fn))),
         ("Accuracy", eq / tot),
         ("Word accuracy", (c.corr_words : ℚ) / n)]

/-- The run-extension test of `MorphemModel._transform_classification`'s
first loop: the current letter continues the open run exactly when it is the
bare continuation of a matching `B-` opener, or repeats the previous raw
label without itself being `B-`-prefixed. -/
def extendsRun (prev cur : String) : Bool :=
  (cur == "SUFF" && prev == "B-SUFF") ||
  (cur == "PREF" && prev == "B-PREF") ||
  (cur == "ROOT" && prev == "B-ROOT") ||
  (cur == prev && !(strStarts cur "B-"))

/-- The grouping loop of `_transform_classification`: `acc` holds the closed
parts, `cur` the open part, `prev` the previous raw label (`parse[index-1]`). -/
def groupGo (acc : List (List String)) (cur : List String) (prev : String) :
    List String → List (List String)
  | [] => acc ++ [cur]
  | l :: rest =>
    if extendsRun prev l then groupGo acc (cur ++ [l]) l rest
    else groupGo (acc ++ [cur]) [l] l rest

/-- The full grouping phase: the first label opens the first part.  Python
indexes `parse[0]` and so raises on an empty input; the theorems below only
use non-empty inputs. -/
def groupParse : List String → List (List String)
  | [] => []
  | l :: rest => groupGo [] [l] l rest

/-- The `B-` normalisation applied to the first label of each part. -/
def stripB (s : String) : String :=
  if s == "B-PREF" then "PREF"
  else if s == "B-SUFF" then "SUFF"
  else if s == "B-ROOT" then "ROOT"
  else s

/-- Re-encoding of the letters after the first of a part: `M-` on interior
letters, `E-` on the last (these keep their raw text, only the first letter
of a part is `stripB`-normalised). -/
def encodeTail : List String → List String
  | [] => []
  | [y] => ["E-" ++ y]
  | y :: z :: rest => ("M-" ++ y) :: encodeTail (z :: rest)

/-- Re-encoding of one grouped part, second loop of
`_transform_classification`: normalise the first label, then `S-` for a
singleton part, otherwise `B-` / `M-` / `E-`. -/
def encodePart : List String → List String
  | [] => []
  | [x] => ["S-" ++ stripB x]
  | x :: y :: rest => ("B-" ++ stripB x) :: encodeTail (y :: rest)

/-- Python `MorphemModel._transform_classification`: group the raw labels
into parts, re-encode each part, concatenate. -/
def transform_classification (parse : List String) : List String :=
  ((groupParse parse).map encodePart).flatten

/-- Contiguity of a run of morphemes starting at a given offset:
`morphemes[0].begin_pos` is the offset and each morpheme starts where the
previous one ends. -/
def contiguousFromB : Nat → List Morpheme → Bool
  | _, [] => true
  | k, m :: rest => (m.begin_pos == k) && contiguousFromB m.end_pos rest

/-- The opening simple label a morpheme of kind `l` emits:  `B-`-marked for
`SUFF`/`PREF`/`ROOT`, the bare tag otherwise. -/
def firstTag (l : MorphemeLabel) : String :=
  if bCoded l then "B-" ++ l.value else l.value

/-- Adjacency condition on consecutive morphemes under which the simple
encoding keeps their boundary recoverable: equal kinds only for the
`B-`-coded kinds `SUFF`/`PREF`/`ROOT`. -/
def adjPair (m1 m2 : Morpheme) : Prop := m1.label = m2.label → bCoded m1.label

instance : ∀ m1 m2 : Morpheme, Decidable (adjPair m1 m2) := fun m1 m2 =>
  inferInstanceAs (Decidable (m1.label = m2.label → bCoded m1.label))

/-- The wordform field of a raw line: the first tab-separated field. -/
def wordformOf (line : String) : List Char := (splitOnChar '\t' line.toList).headD []

/-- Concrete one-morpheme word used as a scorer argument in several
witnesses (the scorer only reads words for diagnostics). -/
def wordRootA : Word := ⟨[⟨['a'], .ROOT, 0⟩], "X"⟩

/-- The `Word` that `parse_word` actually builds from `ab<TAB>a:ROOT/b:END`:
the second morpheme starts at offset 6 = `len "a:ROOT"`. -/
def wordOffsetBug : Word := ⟨[⟨['a'], .ROOT, 0⟩, ⟨['b'], .END, 6⟩], "X"⟩

/-- The `Word` that `parse_word` builds from the multi-morpheme scenario
line (offsets advance by whole-token lengths: 0, 8, 17, 23). -/
def wordPriParsed : Word :=
  ⟨[⟨"при".toList, .PREF, 0⟩, ⟨"двор".toList, .ROOT, 8⟩,
    ⟨"н".toList, .SUFF, 17⟩, ⟨"ый".toList, .END, 23⟩], "X"⟩

/-- The multi-morpheme scenario word with the invariant-satisfying
contiguous offsets 0, 3, 7, 8. -/
def wordPri : Word :=
  ⟨[⟨"при".toList, .PREF, 0⟩, ⟨"двор".toList, .ROOT, 3⟩,
    ⟨"н".toList, .SUFF, 7⟩, ⟨"ый".toList, .END, 8⟩], "X"⟩

/-- A well-formed word made of two adjacent one-letter `END` morphemes. -/
def wordTwoEnd : Word := ⟨[⟨['а'], .END, 0⟩, ⟨['б'], .END, 1⟩], "X"⟩

/-- Full-label shape of a morpheme: `Morpheme.get_labels` always produces a
single `S-` tag or a `B-`, `length - 2` times `M-`, `E-` sequence. -/
lemma labels_shape (m : Morpheme) :
    m.get_labels =
      if m.length = 1 then ["S-" ++ m.label.value]
      else ("B-" ++ m.label.value) ::
        (List.replicate (m.length - 2) ("M-" ++ m.label.value) ++ ["E-" ++ m.label.value]) := by
  unfold Morpheme.get_labels
  by_cases h1 : m.length = 1
  · simp [h1]
  · simp [h1]
    unfold Morpheme.length
    omega

lemma get_labels_length (m : Morpheme) (h : m.part_text ≠ []) :
    m.get_labels.length = m.length := by
  have hpos : 0 < m.length := List.length_pos.mpr h
  rw [labels_shape]
  by_cases h1 : m.length = 1
  · simp [h1]
  · simp [h1]
    omega

lemma get_simple_labels_length (m : Morpheme) (h : m.part_text ≠ []) :
    m.get_simple_labels.length = m.length := by
  have hpos : 0 < m.part_text.length := List.length_pos.mpr h
  unfold Morpheme.get_simple_labels Morpheme.length
  by_cases hb : bCoded m.label
  · by_cases h1 : m.part_text.length > 1
    · simp [hb, h1]
      omega
    · have h2 : m.part_text.length = 1 := by omega
      simp [hb, h1, h2]
  · simp [hb]

/-- Claim C2 (code_bug evidence).  The spec says `parse_word` assigns
consecutive, non-overlapping offsets starting at 0; the code advances the
offset by the length of the whole `text:KIND` token, so on
`ab<TAB>a:ROOT/b:END` the first morpheme ends at 1 while the second begins
at 6, and the word is not contiguous. -/
theorem C2_offsets_bug_eval :
    parse_word "ab\ta:ROOT/b:END" = ParseResult.ok wordOffsetBug ∧
    wordOffsetBug.morphemes.map Morpheme.end_pos = [1, 7] ∧
    wordOffsetBug.morphemes.map Morpheme.begin_pos = [0, 6] ∧
    contiguousFromB 0 wordOffsetBug.morphemes = false := by decide

/-- Claim C3: for every word whose morphemes have non-empty text (and
non-`NONE` labels), the full label sequence, the simple label sequence and
the word length all agree. -/
theorem C3_length_invariant (w : Word)
    (h : ∀ m ∈ w.morphemes, m.part_text ≠ [] ∧ m.label ≠ MorphemeLabel.NONE) :
    w.get_labels.length = w.len ∧ w.get_simple_labels.length = w.len := by
  constructor
  · unfold Word.get_labels Word.len
    rw [List.length_flatten, List.map_map]
    apply congrArg List.sum
    apply List.map_congr_left
    intro m hm
    exact get_labels_length m (h m hm).1
  · unfold Word.get_simple_labels Word.len
    rw [List.length_flatten, List.map_map]
    apply congrArg List.sum
    apply List.map_congr_left
    intro m hm
    exact get_simple_labels_length m (h m hm).1

/-- Witness for C3 at the concrete four-morpheme word. -/
theorem C3_length_invariant_witness :
    wordPri.get_labels.length = wordPri.len ∧ wordPri.get_simple_labels.length = wordPri.len :=
  C3_length_invariant wordPri (by decide)

/-- Claim C4: the full-variant encoding of a morpheme with non-`NONE` kind
is a single `S-` tag when its length is 1, otherwise `B-`, interior `M-`s,
final `E-`; and the word parsed from the scenario line carries exactly the
claimed full label sequence. -/
theorem C4_full_encoding :
    (∀ m : Morpheme, m.label ≠ MorphemeLabel.NONE → m.part_text ≠ [] →
      m.get_labels =
        if m.length = 1 then ["S-" ++ m.label.value]
        else ("B-" ++ m.label.value) ::
          (List.replicate (m.length - 2) ("M-" ++ m.label.value) ++ ["E-" ++ m.label.value])) ∧
    parse_word "придворный\tпри:PREF/двор:ROOT/н:SUFF/ый:END" = ParseResult.ok wordPriParsed ∧
    wordPriParsed.get_labels =
      ["B-PREF", "M-PREF", "E-PREF", "B-ROOT", "M-ROOT", "M-ROOT", "E-ROOT",
       "S-SUFF", "B-END", "E-END"] := by
  refine ⟨fun m _ _ => labels_shape m, by decide, by decide⟩

/-- Witness for C4 at a concrete three-letter root morpheme. -/
theorem C4_full_encoding_witness :
    Morpheme.get_labels ⟨"дом".toList, MorphemeLabel.ROOT, 0⟩ = ["B-ROOT", "M-ROOT", "E-ROOT"] := by
  rw [C4_full_encoding.1 ⟨"дом".toList, MorphemeLabel.ROOT, 0⟩ (by decide) (by decide)]
  decide

lemma encodeTail_length (l : List String) : (encodeTail l).length = l.length := by
  induction l with
  | nil => rfl
  | cons y t ih =>
    cases t with
    | nil => rfl
    | cons z rest =>
      rw [show encodeTail (y :: z :: rest) = ("M-" ++ y) :: encodeTail (z :: rest) from rfl]
      simpa using ih

lemma encodePart_length (l : List String) : (encodePart l).length = l.length := by
  cases l with
  | nil => rfl
  | cons x t =>
    cases t with
    | nil => rfl
    | cons y rest =>
      rw [show encodePart (x :: y :: rest) = ("B-" ++ stripB x) :: encodeTail (y :: rest) from rfl]
      simp [encodeTail_length]

lemma groupGo_flatten (rest : List String) :
    ∀ (acc : List (List String)) (cur : List String) (prev : String),
      (groupGo acc cur prev rest).flatten = acc.flatten ++ cur ++ rest := by
  induction rest with
  | nil => intro acc cur prev; simp [groupGo]
  | cons l ls ih =>
    intro acc cur prev
    unfold groupGo
    by_cases h : extendsRun prev l = true
    · simp [h, ih]
    · simp [h, ih]

lemma groupParse_flatten (p : List String) : (groupParse p).flatten = p := by
  cases p with
  | nil => rfl
  | cons l ls => simp [groupParse, groupGo_flatten]

lemma encodeTail_mem (l : List String) :
    ∀ s ∈ encodeTail l, ∃ r, s = "M-" ++ r ∨ s = "E-" ++ r := by
  induction l with
  | nil => intro s hs; cases hs
  | cons y t ih =>
    cases t with
    | nil =>
      intro s hs
      rw [show encodeTail [y] = ["E-" ++ y] from rfl, List.mem_singleton] at hs
      exact ⟨y, Or.inr hs⟩
    | cons z rest =>
      intro s hs
      rw [show encodeTail (y :: z :: rest) = ("M-" ++ y) :: encodeTail (z :: rest) from rfl] at hs
      rcases List.mem_cons.mp hs with hs | hs
      · exact ⟨y, Or.inl hs⟩
      · exact ih s hs

lemma encodePart_mem (l : List String) :
    ∀ s ∈ encodePart l, ∃ r, s = "S-" ++ r ∨ s = "B-" ++ r ∨ s = "M-" ++ r ∨ s = "E-" ++ r := by
  cases l with
  | nil => intro s hs; cases hs
  | cons x t =>
    cases t with
    | nil =>
      intro s hs
      rw [show encodePart [x] = ["S-" ++ stripB x] from rfl, List.mem_singleton] at hs
      exact ⟨stripB x, Or.inl hs⟩
    | cons y rest =>
      intro s hs
      rw [show encodePart (x :: y :: rest) = ("B-" ++ stripB x) :: encodeTail (y :: rest) from rfl] at hs
      rcases List.mem_cons.mp hs with hs | hs
      · exact ⟨stripB x, Or.inr (Or.inl hs)⟩
      · obtain ⟨r, hr⟩ := encodeTail_mem (y :: rest) s hs
        exact ⟨r, Or.inr (Or.inr hr)⟩

/-- Claim C10: on every non-empty label list — well-formed or not — the
decoder `_transform_classification` returns a list of the same length whose
every element carries one of the positional markers `S-`, `B-`, `M-`, `E-`. -/
theorem C10_decoder_shape (p : List String) (_hp : p ≠ []) :
    (transform_classification p).length = p.length ∧
    ∀ s ∈ transform_classification p, ∃ r,
      s = "S-" ++ r ∨ s = "B-" ++ r ∨ s = "M-" ++ r ∨ s = "E-" ++ r := by
  constructor
  · unfold transform_classification
    rw [List.length_flatten, List.map_map]
    have h : (groupParse p).map (List.length ∘ encodePart) = (groupParse p).map List.length := by
      apply List.map_congr_left
      intro part _
      exact encodePart_length part
    rw [h, ← List.length_flatten, groupParse_flatten]
  · intro s hs
    unfold transform_classification at hs
    rw [List.mem_flatten] at hs
    obtain ⟨l, hl, hsl⟩ := hs
    rw [List.mem_map] at hl
    obtain ⟨part, _, rfl⟩ := hl
    exact encodePart_mem part s hsl

/-- Witness for C10 on a concrete ill-formed classifier output. -/
theorem C10_decoder_shape_witness :
    (transform_classification ["B-ROOT", "UNKN"]).length = 2 :=
  (C10_decoder_shape ["B-ROOT", "UNKN"] (by decide)).1

lemma parseRest_rejected (wordform word_parts : List Char) (sp : String)
    (h : wordform.contains ':' = true ∨ wordform.contains '/' = true) :
    parseRest wordform word_parts sp = ParseResult.rejected := by
  have hb : (wordform.contains ':' || wordform.contains '/') = true := by
    rcases h with h | h
    · rw [h, Bool.true_or]
    · rw [h, Bool.or_true]
  unfold parseRest
  rw [hb]
  simp

/-- Claim C9, amended.  If the wordform field contains a colon or a slash,
`parse_word` never returns a parsed word; and whenever the line's field
structure and part-of-speech resolution succeed (2 or 3 tab-separated
fields, or 4 with a recognised `class_info`), the rejection is exactly the
AmbiguousWordform signal — the `None` return, `ParseResult.rejected`.
(As stated the claim is false: a 4-field line with unknown `class_info`
raises the UnknownClass exception before the ambiguity guard runs.) -/
theorem C9_ambiguous_wordform_amended :
    (∀ line : String,
      (wordformOf line).contains ':' = true ∨ (wordformOf line).contains '/' = true →
      ∀ w : Word, parse_word line ≠ ParseResult.ok w) ∧
    (∀ line : String,
      ((splitOnChar '\t' line.toList).length = 2 ∨ (splitOnChar '\t' line.toList).length = 3 ∨
        ((splitOnChar '\t' line.toList).length = 4 ∧
          (classOf ((splitOnChar '\t' line.toList).getD 3 [])).isSome = true)) →
      (wordformOf line).contains ':' = true ∨ (wordformOf line).contains '/' = true →
      parse_word line = ParseResult.rejected) := by
  constructor
  · intro line h w
    unfold wordformOf at h
    unfold parse_word
    rcases hf : splitOnChar '\t' line.toList with _ | ⟨a, _ | ⟨b, _ | ⟨c, _ | ⟨d, _ | ⟨e, tl⟩⟩⟩⟩⟩ <;>
        rw [hf] at h <;> simp only [List.headD] at h
    · simp [List.contains] at h
    · simp
    · simp [parseRest_rejected a b "X" h]
    · simp [parseRest_rejected a b (String.mk c) h]
    · cases hc : classOf d with
      | none => simp [hc]
      | some sp => simp [hc, parseRest_rejected a b sp h]
    · simp
  · intro line hlen h
    unfold wordformOf at h
    unfold parse_word
    rcases hf : splitOnChar '\t' line.toList with _ | ⟨a, _ | ⟨b, _ | ⟨c, _ | ⟨d, _ | ⟨e, tl⟩⟩⟩⟩⟩ <;>
        rw [hf] at h hlen <;> simp only [List.headD] at h <;>
        simp only [List.length_cons, List.length_nil] at hlen
    · rcases hlen with h2 | h3 | ⟨h4, _⟩ <;> omega
    · rcases hlen with h2 | h3 | ⟨h4, _⟩ <;> omega
    · simp [parseRest_rejected a b "X" h]
    · simp [parseRest_rejected a b (String.mk c) h]
    · rcases hlen with h2 | h3 | ⟨h4, hsome⟩
      · omega
      · omega
      · rw [show ([a, b, c, d].getD 3 []) = d from rfl] at hsome
        obtain ⟨sp, hsp⟩ := Option.isSome_iff_exists.mp hsome
        simp [hsp, parseRest_rejected a b sp h]
    · rcases hlen with h2 | h3 | ⟨h4, _⟩ <;> omega

/-- Counterexample to claim C9 as stated: this line's wordform contains a
colon, yet `parse_word` raises the UnknownClass exception (the four-field
branch resolves `class_info` before the ambiguity guard), so the reject
signal is not AmbiguousWordform (`parse_word` does not return `None`). -/
theorem C9_ambiguous_wordform_counterexample :
    (wordformOf "a:b\tc:ROOT\tx\tZZZ").contains ':' = true ∧
    parse_word "a:b\tc:ROOT\tx\tZZZ" = ParseResult.failed ParseErr.unknownClass := by decide

/-- Witness for C9 on a concrete two-field line with a colon in the
wordform. -/
theorem C9_ambiguous_wordform_witness :
    parse_word "a:b\tc:ROOT" = ParseResult.rejected :=
  C9_ambiguous_wordform_amended.2 "a:b\tc:ROOT" (by decide) (by decide)

/-- Claim C8: whenever a metric denominator is zero — no predicted
boundaries (TP+FP = 0), no gold boundaries (TP+FN = 0), zero total gold
length, or zero words — `measure_quality` fails with the UndefinedMetric
error (Python's `ZeroDivisionError`) instead of returning numbers. -/
theorem C8_zero_denominator (pt t : List (List String)) (ws : List Word)
    (h : (countsOf (scorePairs pt t ws)).TP + (countsOf (scorePairs pt t ws)).FP = 0 ∨
         (countsOf (scorePairs pt t ws)).TP + (countsOf (scorePairs pt t ws)).FN = 0 ∨
         (countsOf (scorePairs pt t ws)).total = 0 ∨ t.length = 0) :
    measure_quality pt t ws = Except.error ScoreErr.undefinedMetric := by
  unfold measure_quality
  dsimp only
  split
  · rfl
  · rename_i hcond
    exfalso
    apply hcond
    rcases h with h | h | h | h
    · left
      exact_mod_cast h
    · right; left
      exact_mod_cast h
    · right; right; right; left
      exact_mod_cast h
    · right; right; right; right
      exact_mod_cast h

/-- Witness for C8 on the empty dataset (zero words). -/
theorem C8_zero_denominator_witness :
    measure_quality [] [] [] = Except.error ScoreErr.undefinedMetric :=
  C8_zero_denominator [] [] [] (by decide)

lemma Counts.add_zero_right (c : Counts) : c.add ⟨0, 0, 0, 0, 0, 0⟩ = c := by
  cases c
  simp [Counts.add]

lemma Counts.add_assoc' (a b c : Counts) : (a.add b).add c = a.add (b.add c) := by
  cases a
  cases b
  cases c
  simp [Counts.add, Nat.add_assoc]

lemma scoreWord_shift (c : Counts) (p : List String × List String) :
    scoreWord c p = c.add (scoreWord ⟨0, 0, 0, 0, 0, 0⟩ p) := by
  cases c
  unfold scoreWord Counts.add
  simp

lemma foldl_scoreWord (ps : List (List String × List String)) :
    ∀ c : Counts, ps.foldl scoreWord c = c.add (countsOf ps) := by
  induction ps with
  | nil =>
    intro c
    simp [countsOf, Counts.add_zero_right]
  | cons p ps ih =>
    intro c
    rw [List.foldl_cons, ih (scoreWord c p)]
    unfold countsOf
    rw [List.foldl_cons, ih (scoreWord ⟨0, 0, 0, 0, 0, 0⟩ p), scoreWord_shift c p,
      Counts.add_assoc']
    rfl

lemma countsOf_append (xs ys : List (List String × List String)) :
    countsOf (xs ++ ys) = (countsOf xs).add (countsOf ys) := by
  unfold countsOf
  rw [List.foldl_append]
  exact foldl_scoreWord ys _

/-- Claim C5, amended only in the spelling of the two `NONE`-kind boundary
labels: the code's boundary set uses the strings `S-None` and `E-None`, not
`S-NONE`/`E-NONE`.  The theorem states: (1) the boundary positions of a
label sequence are exactly the in-range indices whose label lies in the
twelve-element `S-`/`E-` set; (2) one word contributes `TP = |G ∩ P|`,
`FN = |G| - |G ∩ P|`, `FP = |P| - |G ∩ P|`; (3) the counters accumulate
additively over the dataset (before any ratio is computed); (4) the gold
boundaries {2,5} / predicted {2,6} scenario yields TP = FN = FP = 1. -/
theorem C5_boundary_scoring_amended :
    (∀ (l : List String) (i : Nat),
      i ∈ boundariesOf l ↔ i < l.length ∧ (l.getD i "") ∈
        (["S-ROOT", "S-PREF", "S-SUFF", "S-END", "S-LINK", "S-None",
          "E-ROOT", "E-PREF", "E-SUFF", "E-END", "E-LINK", "E-None"] : List String)) ∧
    (∀ corr pred : List String,
      (countsOf [(corr, pred)]).TP = ((boundariesOf corr).inter (boundariesOf pred)).length ∧
      (countsOf [(corr, pred)]).FN =
        (boundariesOf corr).length - ((boundariesOf corr).inter (boundariesOf pred)).length ∧
      (countsOf [(corr, pred)]).FP =
        (boundariesOf pred).length - ((boundariesOf corr).inter (boundariesOf pred)).length) ∧
    (∀ xs ys : List (List String × List String),
      countsOf (xs ++ ys) = (countsOf xs).add (countsOf ys)) ∧
    (boundariesOf ["X", "X", "E-ROOT", "X", "X", "E-END", "X"] = [2, 5] ∧
     boundariesOf ["X", "X", "E-ROOT", "X", "X", "X", "E-END"] = [2, 6] ∧
     countsOf [(["X", "X", "E-ROOT", "X", "X", "E-END", "X"],
                ["X", "X", "E-ROOT", "X", "X", "X", "E-END"])] = ⟨1, 1, 1, 5, 7, 0⟩) := by
  refine ⟨?_, ?_, countsOf_append, by decide⟩
  · intro l i
    unfold boundariesOf
    rw [List.mem_filter, List.mem_range]
    rw [show SE_list = ["S-ROOT", "S-PREF", "S-SUFF", "S-END", "S-LINK", "S-None",
      "E-ROOT", "E-PREF", "E-SUFF", "E-END", "E-LINK", "E-None"] from rfl]
    exact and_congr_right fun _ => List.elem_iff
  · intro corr pred
    refine ⟨?_, ?_, ?_⟩ <;>
      · show (0 : Nat) + _ = _
        rw [Nat.zero_add]
        rfl

lemma measure_quality_congr (pt1 pt2 t : List (List String)) (ws1 ws2 : List Word)
    (h : scorePairs pt1 t ws1 = scorePairs pt2 t ws2) :
    measure_quality pt1 t ws1 = measure_quality pt2 t ws2 := by
  unfold measure_quality
  rw [h]

lemma map_fst_zip_eq_take {α γ : Type _} (x : List α) :
    ∀ c : List γ, (x.zip c).map Prod.fst = x.take c.length := by
  induction x with
  | nil => intro c; simp
  | cons a x ih =>
    intro c
    cases c with
    | nil => simp
    | cons g c => simp [ih c]

lemma zip_take_right {α β : Type _} (t : List α) :
    ∀ (p : List β) (k : Nat), t.zip (p.take k) = (t.zip p).take k := by
  induction t with
  | nil => intro p k; simp
  | cons a t ih =>
    intro p k
    cases p with
    | nil => simp
    | cons b p =>
      cases k with
      | zero => simp
      | succ k => simp [ih p k]

/-- Claim C7, amended.  The scorer performs no alignment check at all: it
silently zips the three lists down to the shortest length, so predictions
and words beyond `min` of the three lengths are ignored (gold targets still
feed the word-accuracy denominator).  No LengthMismatch-style error exists
in `measure_quality`. -/
theorem C7_truncation_amended :
    ∀ (pt t : List (List String)) (ws : List Word),
      measure_quality pt t ws =
        measure_quality (pt.take (min t.length (min pt.length ws.length))) t
          (ws.take (min t.length (min pt.length ws.length))) := by
  intro pt t ws
  apply measure_quality_congr
  unfold scorePairs
  rw [map_fst_zip_eq_take, map_fst_zip_eq_take, zip_take_right, List.take_take,
    List.length_take, List.take_eq_take, List.length_zip]
  omega

/-- Counterexample to claim C7 as stated: two predicted sequences against
one gold sequence and one word is a length mismatch, yet `measure_quality`
signals nothing and happily returns metrics (computed over the zipped
single pair). -/
theorem C7_length_mismatch_counterexample :
    measure_quality [["E-ROOT"], ["E-ROOT"]] [["E-ROOT"]] [wordRootA] =
      Except.ok [("Precision", 1), ("Recall", 1), ("F1", 1), ("Accuracy", 1), ("Word accuracy", 1)] := by
  have h : countsOf (scorePairs [["E-ROOT"], ["E-ROOT"]] [["E-ROOT"]] [wordRootA]) =
      ⟨1, 0, 0, 1, 1, 1⟩ := by decide
  unfold measure_quality
  rw [h]
  norm_num

/-- Counterexample to claim C5 as stated: the claim's boundary set spells
the `NONE`-kind markers `S-NONE`/`E-NONE`, but the code's `SE` list contains
`S-None`/`E-None`.  On the sequence `["S-NONE"]` the claim predicts a
boundary at index 0 (its label is in the claimed set), yet the scorer finds
no boundary and counts no true positive even for a perfect match. -/
theorem C5_boundary_set_counterexample :
    ("S-NONE" ∈ (["S-ROOT", "S-PREF", "S-SUFF", "S-END", "S-LINK", "S-NONE",
        "E-ROOT", "E-PREF", "E-SUFF", "E-END", "E-LINK", "E-NONE"] : List String)) ∧
    boundariesOf ["S-NONE"] = [] ∧
    (countsOf [(["S-NONE"], ["S-NONE"])]).TP = 0 := by decide

lemma filter_contains_self (l : List Nat) : l.filter (fun x => l.contains x) = l := by
  apply List.filter_eq_self.mpr
  intro a ha
  exact List.elem_iff.mpr ha

lemma countP_zip_self (l : List String) :
    ((l.zip l).countP fun xy => xy.1 == xy.2) = l.length := by
  induction l with
  | nil => rfl
  | cons a l ih => simp [List.countP_cons, ih]

lemma zip_self_eq_map {α : Type _} (l : List α) : l.zip l = l.map fun s => (s, s) := by
  induction l with
  | nil => rfl
  | cons a l ih => simp [ih]

lemma filter_mem_self (l : List Nat) : List.filter (fun x => decide (x ∈ l)) l = l := by
  apply List.filter_eq_self.mpr
  intro a ha
  simpa using ha

lemma scoreWord_diag (c : Counts) (s : List String) :
    scoreWord c (s, s) = c.add ⟨(boundariesOf s).length, 0, 0, s.length, s.length, 1⟩ := by
  unfold scoreWord Counts.add
  simp [filter_contains_self, filter_mem_self, countP_zip_self]

lemma countsOf_diag (ts : List (List String)) :
    countsOf (ts.map fun s => (s, s)) =
      ⟨(ts.map fun s => (boundariesOf s).length).sum, 0, 0,
       (ts.map List.length).sum, (ts.map List.length).sum, ts.length⟩ := by
  induction ts with
  | nil => rfl
  | cons s ts ih =>
    have h1 : countsOf ((s, s) :: ts.map fun x => (x, x)) =
        (scoreWord ⟨0, 0, 0, 0, 0, 0⟩ (s, s)).add (countsOf (ts.map fun x => (x, x))) := by
      unfold countsOf
      rw [List.foldl_cons]
      exact foldl_scoreWord _ _
    simp only [List.map_cons]
    rw [h1, ih, scoreWord_diag]
    unfold Counts.add
    simp only [Counts.mk.injEq, List.sum_cons, List.length_cons]
    refine ⟨?_, ?_, ?_, ?_, ?_, ?_⟩
    all_goals first | omega | trivial

/-- Claim C6, amended.  For a non-empty aligned dataset (as many words as
gold sequences) whose predictions equal the gold sequences element-wise,
all five metrics are exactly 1 — provided at least one gold sequence
contains a boundary label.  (As stated the claim is false: with gold ==
predicted but no boundary label anywhere, `TP + FP = 0` and the scorer
raises instead of returning 1.0.) -/
theorem C6_perfect_prediction_amended (pt t : List (List String)) (ws : List Word)
    (hpred : pt = t) (hws : ws.length = t.length)
    (hb : ∃ s ∈ t, boundariesOf s ≠ []) :
    measure_quality pt t ws =
      Except.ok [("Precision", 1), ("Recall", 1), ("F1", 1), ("Accuracy", 1),
                 ("Word accuracy", 1)] := by
  rw [hpred]
  have hpairs : scorePairs t t ws = t.map fun s => (s, s) := by
    unfold scorePairs
    rw [map_fst_zip_eq_take, List.take_of_length_le]
    · exact zip_self_eq_map t
    · rw [List.length_zip]
      omega
  have hcounts : countsOf (scorePairs t t ws) =
      ⟨(t.map fun s => (boundariesOf s).length).sum, 0, 0,
       (t.map List.length).sum, (t.map List.length).sum, t.length⟩ := by
    rw [hpairs, countsOf_diag]
  obtain ⟨s0, hs0t, hs0⟩ := hb
  have hBpos : 0 < (t.map fun s => (boundariesOf s).length).sum := by
    have hmem : (boundariesOf s0).length ∈ t.map fun s => (boundariesOf s).length :=
      List.mem_map_of_mem _ hs0t
    have hle := List.single_le_sum (fun x _ => Nat.zero_le x) _ hmem
    have hpos : 0 < (boundariesOf s0).length := List.length_pos.mpr hs0
    omega
  have hs0ne : s0 ≠ [] := by
    intro hnil
    apply hs0
    rw [hnil]
    rfl
  have hLpos : 0 < (t.map List.length).sum := by
    have hmem : s0.length ∈ t.map List.length := List.mem_map_of_mem _ hs0t
    have hle := List.single_le_sum (fun x _ => Nat.zero_le x) _ hmem
    have hpos : 0 < s0.length := List.length_pos.mpr hs0ne
    omega
  have hnpos : 0 < t.length := List.length_pos.mpr (List.ne_nil_of_mem hs0t)
  have hBQ : (((t.map fun s => (boundariesOf s).length).sum : Nat) : ℚ) ≠ 0 := by
    exact_mod_cast Nat.pos_iff_ne_zero.mp hBpos
  have hLQ : (((t.map List.length).sum : Nat) : ℚ) ≠ 0 := by
    exact_mod_cast Nat.pos_iff_ne_zero.mp hLpos
  have hnQ : ((t.length : Nat) : ℚ) ≠ 0 := by
    exact_mod_cast Nat.pos_iff_ne_zero.mp hnpos
  unfold measure_quality
  rw [hcounts]
  dsimp only
  split
  · rename_i hcond
    exfalso
    rcases hcond with h | h | h | h | h <;>
      simp only [Nat.cast_zero, add_zero, mul_zero, Nat.cast_eq_zero] at h <;> omega
  · norm_num [div_self, hBQ, hLQ, hnQ]
    constructor
    · rw [← List.map_map, ← Nat.cast_list_sum]
      exact div_self hBQ
    · rw [← List.map_map, ← Nat.cast_list_sum]
      exact div_self hLQ

/-- Witness for C6 on a one-word dataset whose single gold label is a
boundary label. -/
theorem C6_perfect_prediction_witness :
    measure_quality [["E-ROOT"]] [["E-ROOT"]] [wordRootA] =
      Except.ok [("Precision", 1), ("Recall", 1), ("F1", 1), ("Accuracy", 1),
                 ("Word accuracy", 1)] :=
  C6_perfect_prediction_amended [["E-ROOT"]] [["E-ROOT"]] [wordRootA] rfl rfl (by decide)

/-- Counterexample to claim C6 as stated: the predicted sequences equal the
gold sequences element-wise and the dataset is non-empty, yet the scorer
raises (`TP + FP = 0`: the label `M-ROOT` marks no boundary) instead of
returning five 1.0 metrics. -/
theorem C6_perfect_prediction_counterexample :
    measure_quality [["M-ROOT"]] [["M-ROOT"]] [wordRootA] =
      Except.error ScoreErr.undefinedMetric := by
  have h : countsOf (scorePairs [["M-ROOT"]] [["M-ROOT"]] [wordRootA]) =
      ⟨0, 0, 0, 1, 1, 1⟩ := by decide
  unfold measure_quality
  rw [h]
  norm_num

lemma simple_shape (m : Morpheme) (h : m.part_text ≠ []) :
    m.get_simple_labels = firstTag m.label :: List.replicate (m.length - 1) m.label.value := by
  have hpos : 0 < m.part_text.length := List.length_pos.mpr h
  unfold Morpheme.get_simple_labels firstTag Morpheme.length
  by_cases hb : bCoded m.label
  · by_cases h1 : m.part_text.length > 1
    · simp only [hb, h1, if_true, if_pos]
      rw [List.map_const']
      simp
    · have h2 : m.part_text.length = 1 := by omega
      simp [hb, h1, h2]
  · simp only [hb, if_false, if_neg, not_false_iff]
    obtain ⟨k, hk⟩ : ∃ k, m.part_text.length = k + 1 := ⟨m.part_text.length - 1, by omega⟩
    rw [hk]
    simp [List.replicate_succ]

lemma stripB_firstTag (l : MorphemeLabel) : stripB (firstTag l) = l.value := by
  cases l <;> decide

lemma ext_first_cont (l : MorphemeLabel) : extendsRun (firstTag l) l.value = true := by
  cases l <;> decide

lemma ext_cont_cont (l : MorphemeLabel) : extendsRun l.value l.value = true := by
  cases l <;> decide

lemma ext_break (l1 l2 : MorphemeLabel) (h1 : l1 ≠ MorphemeLabel.NONE)
    (h2 : l2 ≠ MorphemeLabel.NONE) (hadj : l1 = l2 → bCoded l1) :
    extendsRun (firstTag l1) (firstTag l2) = false ∧
    extendsRun l1.value (firstTag l2) = false := by
  cases l1 <;> cases l2 <;>
    first
      | exact absurd rfl h1
      | exact absurd rfl h2
      | exact absurd (hadj rfl) (by decide)
      | decide

lemma groupGo_acc (rest : List String) :
    ∀ (acc : List (List String)) (cur : List String) (prev : String),
      groupGo acc cur prev rest = acc ++ groupGo [] cur prev rest := by
  induction rest with
  | nil => intro acc cur prev; simp [groupGo]
  | cons l ls ih =>
    intro acc cur prev
    unfold groupGo
    by_cases h : extendsRun prev l = true
    · rw [if_pos h, if_pos h]
      exact ih acc (cur ++ [l]) l
    · rw [if_neg h, if_neg h, ih (acc ++ [cur]) [l] l, ih ([] ++ [cur]) [l] l]
      simp

lemma run_consume (b : String) (hbb : extendsRun b b = true) :
    ∀ (k : Nat) (cur : List String) (prev : String),
      extendsRun prev b = true → ∀ ys : List String,
      groupGo [] cur prev (List.replicate k b ++ ys) =
        groupGo [] (cur ++ List.replicate k b) (if k = 0 then prev else b) ys := by
  intro k
  induction k with
  | zero => intro cur prev _ ys; simp
  | succ k ih =>
    intro cur prev hpb ys
    rw [List.replicate_succ, List.cons_append]
    rw [show groupGo [] cur prev (b :: (List.replicate k b ++ ys)) =
        if extendsRun prev b then groupGo [] (cur ++ [b]) b (List.replicate k b ++ ys)
        else groupGo ([] ++ [cur]) [b] b (List.replicate k b ++ ys) from rfl]
    rw [if_pos hpb, ih (cur ++ [b]) b hbb ys]
    have hif : (if k = 0 then b else b) = b := by
      by_cases hk : k = 0 <;> simp [hk]
    rw [hif]
    have hsucc : (if k + 1 = 0 then prev else b) = b := by simp
    rw [hsucc]
    simp [List.replicate_succ]

lemma groupGo_words (ms : List Morpheme) :
    ∀ (cur : List String) (prev : String),
      (∀ m ∈ ms, m.part_text ≠ [] ∧ m.label ≠ MorphemeLabel.NONE) →
      List.Chain' adjPair ms →
      (∀ m, ms.head? = some m → extendsRun prev (firstTag m.label) = false) →
      groupGo [] cur prev ((ms.map Morpheme.get_simple_labels).flatten) =
        cur :: ms.map Morpheme.get_simple_labels := by
  induction ms with
  | nil =>
    intro cur prev _ _ _
    simp [groupGo]
  | cons m rest ih =>
    intro cur prev hwf hchain hbrk
    have hm := hwf m (List.mem_cons_self m rest)
    have hbrk1 : extendsRun prev (firstTag m.label) = false := hbrk m rfl
    simp only [List.map_cons, List.flatten_cons]
    rw [simple_shape m hm.1, List.cons_append]
    rw [show groupGo [] cur prev
          (firstTag m.label ::
            (List.replicate (m.length - 1) m.label.value ++
              (rest.map Morpheme.get_simple_labels).flatten)) =
        if extendsRun prev (firstTag m.label) then
          groupGo [] (cur ++ [firstTag m.label]) (firstTag m.label)
            (List.replicate (m.length - 1) m.label.value ++
              (rest.map Morpheme.get_simple_labels).flatten)
        else
          groupGo ([] ++ [cur]) [firstTag m.label] (firstTag m.label)
            (List.replicate (m.length - 1) m.label.value ++
              (rest.map Morpheme.get_simple_labels).flatten) from rfl]
    rw [if_neg (by rw [hbrk1]; exact Bool.false_ne_true)]
    rw [groupGo_acc _ ([] ++ [cur]) _ _]
    rw [run_consume m.label.value (ext_cont_cont m.label) (m.length - 1)
      [firstTag m.label] (firstTag m.label) (ext_first_cont m.label) _]
    have hrest_wf : ∀ m2 ∈ rest, m2.part_text ≠ [] ∧ m2.label ≠ MorphemeLabel.NONE :=
      fun m2 hm2 => hwf m2 (List.mem_cons_of_mem m hm2)
    have hrest_chain : List.Chain' adjPair rest := (List.chain'_cons'.mp hchain).2
    have hrest_brk : ∀ m2, rest.head? = some m2 →
        extendsRun (if m.length - 1 = 0 then firstTag m.label else m.label.value)
          (firstTag m2.label) = false := by
      intro m2 hm2
      have hmem : m2 ∈ rest := List.mem_of_mem_head? (by rw [hm2]; rfl)
      have hm2wf := hrest_wf m2 hmem
      have hadjp : adjPair m m2 :=
        (List.chain'_cons'.mp hchain).1 m2 (by rw [hm2]; rfl)
      have hb := ext_break m.label m2.label hm.2 hm2wf.2 hadjp
      by_cases hk : m.length - 1 = 0
      · rw [if_pos hk]
        exact hb.1
      · rw [if_neg hk]
        exact hb.2
    rw [ih _ _ hrest_wf hrest_chain hrest_brk]
    rw [show [firstTag m.label] ++ List.replicate (m.length - 1) m.label.value =
        firstTag m.label :: List.replicate (m.length - 1) m.label.value from rfl]
    rw [← simple_shape m hm.1]
    simp

lemma groupParse_words (ms : List Morpheme)
    (hne : ms ≠ [])
    (hwf : ∀ m ∈ ms, m.part_text ≠ [] ∧ m.label ≠ MorphemeLabel.NONE)
    (hchain : List.Chain' adjPair ms) :
    groupParse ((ms.map Morpheme.get_simple_labels).flatten) =
      ms.map Morpheme.get_simple_labels := by
  cases ms with
  | nil => exact absurd rfl hne
  | cons m rest =>
    have hm := hwf m (List.mem_cons_self m rest)
    simp only [List.map_cons, List.flatten_cons]
    rw [simple_shape m hm.1, List.cons_append]
    rw [show groupParse
          (firstTag m.label ::
            (List.replicate (m.length - 1) m.label.value ++
              (rest.map Morpheme.get_simple_labels).flatten)) =
        groupGo [] [firstTag m.label] (firstTag m.label)
          (List.replicate (m.length - 1) m.label.value ++
            (rest.map Morpheme.get_simple_labels).flatten) from rfl]
    rw [run_consume m.label.value (ext_cont_cont m.label) (m.length - 1)
      [firstTag m.label] (firstTag m.label) (ext_first_cont m.label) _]
    have hrest_wf : ∀ m2 ∈ rest, m2.part_text ≠ [] ∧ m2.label ≠ MorphemeLabel.NONE :=
      fun m2 hm2 => hwf m2 (List.mem_cons_of_mem m hm2)
    have hrest_chain : List.Chain' adjPair rest := (List.chain'_cons'.mp hchain).2
    have hrest_brk : ∀ m2, rest.head? = some m2 →
        extendsRun (if m.length - 1 = 0 then firstTag m.label else m.label.value)
          (firstTag m2.label) = false := by
      intro m2 hm2
      have hmem : m2 ∈ rest := List.mem_of_mem_head? (by rw [hm2]; rfl)
      have hm2wf := hrest_wf m2 hmem
      have hadjp : adjPair m m2 :=
        (List.chain'_cons'.mp hchain).1 m2 (by rw [hm2]; rfl)
      have hb := ext_break m.label m2.label hm.2 hm2wf.2 hadjp
      by_cases hk : m.length - 1 = 0
      · rw [if_pos hk]
        exact hb.1
      · rw [if_neg hk]
        exact hb.2
    rw [groupGo_words rest _ _ hrest_wf hrest_chain hrest_brk]
    rfl

lemma encodeTail_replicate (v : String) : ∀ k : Nat, k ≠ 0 →
    encodeTail (List.replicate k v) = List.replicate (k - 1) ("M-" ++ v) ++ ["E-" ++ v] := by
  intro k
  induction k with
  | zero => intro h; exact absurd rfl h
  | succ k ih =>
    intro _
    cases k with
    | zero => rfl
    | succ k2 =>
      rw [show List.replicate (k2 + 1 + 1) v = v :: v :: List.replicate k2 v by
        simp [List.replicate_succ]]
      rw [show encodeTail (v :: v :: List.replicate k2 v) =
          ("M-" ++ v) :: encodeTail (v :: List.replicate k2 v) from rfl]
      rw [show (v :: List.replicate k2 v) = List.replicate (k2 + 1) v by
        simp [List.replicate_succ]]
      rw [ih (Nat.succ_ne_zero k2)]
      simp [List.replicate_succ]

lemma encodePart_simple (m : Morpheme) (h : m.part_text ≠ [])
    (_hn : m.label ≠ MorphemeLabel.NONE) :
    encodePart (m.get_simple_labels) = m.get_labels := by
  have hpos : 0 < m.length := List.length_pos.mpr h
  rw [simple_shape m h, labels_shape]
  by_cases h1 : m.length = 1
  · rw [show m.length - 1 = 0 by omega, List.replicate_zero]
    rw [show encodePart [firstTag m.label] = ["S-" ++ stripB (firstTag m.label)] from rfl]
    rw [stripB_firstTag m.label]
    simp [h1]
  · obtain ⟨k, hkk⟩ : ∃ k, m.length - 1 = k + 1 := ⟨m.length - 2, by omega⟩
    rw [hkk, List.replicate_succ]
    rw [show encodePart (firstTag m.label :: m.label.value :: List.replicate k m.label.value) =
        ("B-" ++ stripB (firstTag m.label)) ::
          encodeTail (m.label.value :: List.replicate k m.label.value) from rfl]
    rw [show (m.label.value :: List.replicate k m.label.value) =
        List.replicate (k + 1) m.label.value by simp [List.replicate_succ]]
    rw [encodeTail_replicate m.label.value (k + 1) (Nat.succ_ne_zero k)]
    rw [stripB_firstTag m.label]
    rw [if_neg h1]
    have hk2 : k + 1 - 1 = m.length - 2 := by omega
    rw [hk2]

/-- Claim C1, amended.  The decode–encode round trip
`_transform_classification (get_simple_labels W) = get_labels W` holds for
every word with at least one morpheme, non-empty morpheme texts, non-`NONE`
kinds and contiguous offsets — provided additionally that no two adjacent
morphemes share a kind outside `SUFF`/`PREF`/`ROOT`.  (As stated the claim
is false: adjacent equal kinds without a `B-` opener, such as `END`/`END`,
merge into a single run when decoding.) -/
theorem C1_round_trip_amended (w : Word)
    (hne : w.morphemes ≠ [])
    (hwf : ∀ m ∈ w.morphemes, m.part_text ≠ [] ∧ m.label ≠ MorphemeLabel.NONE)
    (_hcont : contiguousFromB 0 w.morphemes = true)
    (hadj : List.Chain' adjPair w.morphemes) :
    transform_classification w.get_simple_labels = w.get_labels := by
  unfold transform_classification Word.get_simple_labels Word.get_labels
  rw [groupParse_words w.morphemes hne hwf hadj, List.map_map]
  apply congrArg List.flatten
  apply List.map_congr_left
  intro m hm
  exact encodePart_simple m (hwf m hm).1 (hwf m hm).2

/-- Counterexample to claim C1 as stated: the word `а:END/б:END` satisfies
every data-model invariant (non-empty texts, non-`NONE` kinds, contiguous
offsets from 0), yet decoding its simple labels `END, END` merges the two
morphemes into one run, giving `B-END, E-END` instead of the full labels
`S-END, S-END`. -/
theorem C1_round_trip_counterexample :
    (∀ m ∈ wordTwoEnd.morphemes, m.part_text ≠ [] ∧ m.label ≠ MorphemeLabel.NONE) ∧
    contiguousFromB 0 wordTwoEnd.morphemes = true ∧
    transform_classification wordTwoEnd.get_simple_labels ≠ wordTwoEnd.get_labels := by
  decide

/-- Witness for C1 on the concrete four-morpheme scenario word. -/
theorem C1_round_trip_witness :
    transform_classification wordPri.get_simple_labels = wordPri.get_labels := by
  have hadj : List.Chain' adjPair wordPri.morphemes := by
    show List.Chain' adjPair
      [⟨"при".toList, .PREF, 0⟩, ⟨"двор".toList, .ROOT, 3⟩,
       ⟨"н".toList, .SUFF, 7⟩, ⟨"ый".toList, .END, 8⟩]
    refine List.chain'_cons.mpr ⟨by decide, ?_⟩
    refine List.chain'_cons.mpr ⟨by decide, ?_⟩
    refine List.chain'_cons.mpr ⟨by decide, ?_⟩
    exact List.chain'_singleton _
  exact C1_round_trip_amended wordPri (by decide) (by decide) (by decide) hadj
